import Mathlib

/-!
Shallow embedding of the zkc-state-service Merkle core (src/merkle.rs) and the
byte-payload hash wrapper (src/poseidon.rs), together with theorems settling the
frozen claims about the natural-language specification.

Machine integers (u32) are modelled as Nat; where overflow or underflow matters
(checked arithmetic semantics, in which an overflowing operation panics), a
separate checked model returning Option is used.  All definitions that model
code are translated from the Rust source; backends and external collaborators
that live outside src/ are modelled from the specification and marked as such.
-/

namespace ZKC

/-! ## Index arithmetic (merkle.rs, mod utils) -/

/-- Node classification, from crate::proto::NodeType (used by merkle.rs). -/
inductive NodeType where
  | NodeLeaf
  | NodeNonLeaf
  | NodeInvalid
deriving DecidableEq

/-- Error codes of merkle.rs (MerkleErrorCode). -/
inductive MerkleErrorCode where
  | InvalidLeafIndex
  | InvalidHash
  | InvalidDepth
  | InvalidIndex
deriving DecidableEq

/-- The all-zero 32-byte hash [0; 32] used as the error source placeholder. -/
def zeroHash : List Nat := List.replicate 32 0

/-- MerkleError of merkle.rs: source hash, offending index, error code. -/
structure MerkleError where
  source : List Nat
  index : Nat
  code : MerkleErrorCode
deriving DecidableEq

/-- Fuel-based floor base-2 logarithm, embedding u32::ilog2 (total on n >= 1). -/
def ilog2Aux : Nat → Nat → Nat
  | 0, _ => 0
  | fuel + 1, n => if 2 ≤ n then ilog2Aux fuel (n / 2) + 1 else 0

/-- u32::ilog2: floor log base 2. -/
def ilog2 (n : Nat) : Nat := ilog2Aux n n

/-- get_offset of merkle.rs: local offset of an index within its level. -/
def get_offset (index : Nat) : Nat :=
  index - (2 ^ ilog2 (index + 1) - 1)

/-- get_node_type of merkle.rs, with the arithmetic read over Nat (no overflow;
the checked-u32 variant is get_node_type_checked). -/
def get_node_type (index : Nat) (height : Nat) : NodeType :=
  if 2 ^ (height + 1) - 1 ≤ index then .NodeInvalid
  else if 2 ^ height - 1 ≤ index then .NodeLeaf
  else .NodeNonLeaf

/-- boundary_check of merkle.rs. -/
def boundary_check (index : Nat) (height : Nat) : Except MerkleError Unit :=
  if get_node_type index height = .NodeInvalid then
    .error ⟨zeroHash, index, .InvalidIndex⟩
  else .ok ()

/-- leaf_check of merkle.rs. -/
def leaf_check (index : Nat) (height : Nat) : Except MerkleError Unit :=
  if get_node_type index height ≠ .NodeLeaf then
    .error ⟨zeroHash, index, .InvalidLeafIndex⟩
  else .ok ()

/-- get_sibling_index of merkle.rs (ideal Nat semantics; the u32-checked
variant is get_sibling_index_checked). -/
def get_sibling_index (index : Nat) : Nat :=
  if index % 2 = 1 then index + 1 else index - 1

/-- The loop body of get_path of merkle.rs: round iterations, each pushing the
current node index (2^height - 1 + p) at the front of the path and moving to
the parent. -/
def get_path_loop : Nat → Nat → Nat → List Nat → List Nat
  | 0, _, _, path => path
  | round + 1, height, p, path =>
      get_path_loop round (height - 1) (p / 2) ((2 ^ height - 1 + p) :: path)

/-- get_path of merkle.rs: leaf_check, then walk from the leaf up, collecting
the indices from the node one level below the root down to the leaf. -/
def get_path (index : Nat) (height : Nat) : Except MerkleError (List Nat) :=
  match leaf_check index height with
  | .error e => .error e
  | .ok _ =>
      let h := ilog2 (index + 1)
      .ok (get_path_loop h h (index - (2 ^ h - 1)) [])

/-! ## Checked u32 arithmetic model (for the overflow claims)

In this model an arithmetic operation that would overflow or underflow u32
returns none (the semantics in which overflow is a panic). -/

/-- 2^32, the number of u32 values. -/
def U32LIM : Nat := 2 ^ 32

/-- Checked u32 subtraction: none on underflow. -/
def checkedSub (a b : Nat) : Option Nat :=
  if b ≤ a then some (a - b) else none

/-- Checked 2_u32.pow e: none when 2^e exceeds u32::MAX. -/
def checkedPow2 (e : Nat) : Option Nat :=
  if 2 ^ e < U32LIM then some (2 ^ e) else none

/-- get_node_type of merkle.rs under checked u32 semantics: the assert on
height, then both thresholds 2^(height+1)-1 and 2^height-1 computed with
checked power and subtraction. -/
def get_node_type_checked (index : Nat) (height : Nat) : Option NodeType :=
  if height < 32 then
    match checkedPow2 (height + 1), checkedPow2 height with
    | some a, some b =>
        match checkedSub a 1, checkedSub b 1 with
        | some t1, some t2 =>
            some (if t1 ≤ index then .NodeInvalid
                  else if t2 ≤ index then .NodeLeaf
                  else .NodeNonLeaf)
        | _, _ => none
    | _, _ => none
  else none

/-- get_sibling_index of merkle.rs under checked u32 semantics: index+1 can
overflow at u32::MAX, index-1 underflows at 0. -/
def get_sibling_index_checked (index : Nat) : Option Nat :=
  if index % 2 = 1 then
    if index + 1 < U32LIM then some (index + 1) else none
  else checkedSub index 1

/-! ## The tree protocol (trait MerkleTree of merkle.rs)

The trait's default methods are generic over a backend supplying the storage
hooks and the two-input hash; a Backend value packages those hooks, and the
protocol functions thread the backend state explicitly.  A mutating operation
returns the state alongside the result so that mutations made before a failure
remain visible (Rust mutates through &mut self even on the Err path). -/

/-- The data carried by a node during traversal (trait MerkleNode): its hash,
its global index, and the hashes of its two children when available. -/
structure MerkleNodeData (H : Type) where
  hash : H
  index : Nat
  left : Option H
  right : Option H
deriving DecidableEq

/-- MerkleProof of merkle.rs: leaf hash at proof time, root, sibling hashes,
leaf index.  The assist field is a plain list; no length invariant is
enforced by the type, as in the Rust Vec. -/
structure MerkleProof (H : Type) where
  source : H
  root : H
  assist : List H
  index : Nat
deriving DecidableEq

/-- The backend capability required by the trait's default methods: the
two-input hash and the storage hooks. -/
structure Backend (H S : Type) where
  hashFn : H → H → H
  setParent : S → Nat → H → H → H → Except MerkleError S
  setLeaf : S → MerkleNodeData H → Except MerkleError S
  getNodeWithHash : S → Nat → H → Except MerkleError (MerkleNodeData H)
  getRootHash : S → H
  updateRootHash : S → H → S

/-- The closure body of get_leaf_with_proof of merkle.rs: walk the ancestor
path from the root, at each step classifying the next path index as left or
right child of the accumulated node, fetching the sibling by its expected
hash, appending the sibling hash to the assist list, and advancing to the
on-path child. -/
def get_leaf_loop {H S : Type} [Inhabited H] (bk : Backend H S) (s : S) :
    List Nat → Nat → MerkleNodeData H →
    Except MerkleError (List H × MerkleNodeData H)
  | [], _, accNode => .ok ([], accNode)
  | child :: rest, acc, accNode =>
      let pair :=
        if (acc + 1) * 2 = child + 1 then
          (accNode.left.getD default, accNode.right.getD default)
        else
          (accNode.right.getD default, accNode.left.getD default)
      match bk.getNodeWithHash s (get_sibling_index child) pair.2 with
      | .error e => .error e
      | .ok siblingNode =>
          match bk.getNodeWithHash s child pair.1 with
          | .error e => .error e
          | .ok accNode2 =>
              match get_leaf_loop bk s rest child accNode2 with
              | .error e => .error e
              | .ok (assist, finalNode) =>
                  .ok (siblingNode.hash :: assist, finalNode)

/-- get_leaf_with_proof of merkle.rs (read-only; no hook it calls mutates). -/
def get_leaf_with_proof {H S : Type} [Inhabited H] (bk : Backend H S)
    (D : Nat) (s : S) (index : Nat) :
    Except MerkleError (MerkleNodeData H × MerkleProof H) :=
  match leaf_check index D with
  | .error e => .error e
  | .ok _ =>
      match get_path index D with
      | .error e => .error e
      | .ok paths =>
          let rootHash := bk.getRootHash s
          match bk.getNodeWithHash s 0 rootHash with
          | .error e => .error e
          | .ok accNode =>
              match get_leaf_loop bk s paths 0 accNode with
              | .error e => .error e
              | .ok (assist, node) =>
                  .ok (node, ⟨node.hash, bk.getRootHash s, assist, index⟩)

/-- The write loop of set_leaf_with_proof of merkle.rs: at fuel k+1 the
current depth is k; combine the running hash with assist[k] (left/right by the
parity of the running offset), halve the offset, and store the new internal
hash at its level-(k) index.  State is threaded through a failing setParent. -/
def set_leaf_loop {H S : Type} [Inhabited H] (bk : Backend H S)
    (assist : List H) :
    Nat → S → Nat → H → S × Except MerkleError H
  | 0, s, _, h => (s, .ok h)
  | k + 1, s, p, h =>
      let a := assist.getD k default
      let lr := if p % 2 = 1 then (a, h) else (h, a)
      let h2 := bk.hashFn lr.1 lr.2
      let p2 := p / 2
      let idx := p2 + (2 ^ k - 1)
      match bk.setParent s idx h2 lr.1 lr.2 with
      | .error e => (s, .error e)
      | .ok s2 => set_leaf_loop bk assist k s2 p2 h2

/-- set_leaf_with_proof of merkle.rs: read the old proof, install the new
leaf, recompute the internal hashes bottom-up consuming the assist list from
its last (leaf-adjacent) entry backward, update the root, and return the old
proof with the new source and root. -/
def set_leaf_with_proof {H S : Type} [Inhabited H] (bk : Backend H S)
    (D : Nat) (s : S) (leaf : MerkleNodeData H) :
    S × Except MerkleError (MerkleProof H) :=
  match get_leaf_with_proof bk D s leaf.index with
  | .error e => (s, .error e)
  | .ok (_, proof0) =>
      match bk.setLeaf s leaf with
      | .error e => (s, .error e)
      | .ok s1 =>
          match set_leaf_loop bk proof0.assist D s1
              (get_offset leaf.index) leaf.hash with
          | (s2, .error e) => (s2, .error e)
          | (s2, .ok rootH) =>
              (bk.updateRootHash s2 rootH,
               .ok { proof0 with source := leaf.hash, root := rootH })

/-- The fold of verify_proof of merkle.rs: consume the assist list from its
first element onward, pairing each element with the running offset parity. -/
def verify_fold {H : Type} (f : H → H → H) : List H → H → Nat → H
  | [], acc, _ => acc
  | x :: rest, acc, p =>
      verify_fold f rest (if p % 2 = 1 then f x acc else f acc x) (p / 2)

/-- verify_proof of merkle.rs: pure; recompute a candidate root from the
source and the assist list and compare with the recorded root.  Always
returns ok; no depth or length validation is performed. -/
def verify_proof {H : Type} [DecidableEq H] (f : H → H → H)
    (proof : MerkleProof H) : Except MerkleError Bool :=
  .ok (decide (proof.root = verify_fold f proof.assist proof.source
        (get_offset proof.index)))

/-! ## Concrete backends -/

/-- Read a store cell (backend storage is a level-order array of hashes). -/
def listGet {H : Type} [Inhabited H] (s : List H) (i : Nat) : H :=
  s.getD i default

/-- Modelled from the spec: the storage backend (kvpair.rs, outside src/) as
an in-memory level-order array.  get_node_with_hash validates the index and
compares the stored hash with the expected one (InvalidHash on mismatch), and
reconstructs a node carrying its children's hashes; set_parent and set_leaf
validate the index and store the hash; the root pointer is cell 0, as in the
MerkleAsArray test backend of merkle.rs. -/
def arrayBackend (H : Type) [DecidableEq H] [Inhabited H]
    (f : H → H → H) (D : Nat) : Backend H (List H) where
  hashFn := f
  setParent := fun s idx h _ _ =>
    match boundary_check idx D with
    | .error e => .error e
    | .ok _ => .ok (s.set idx h)
  setLeaf := fun s leaf =>
    match leaf_check leaf.index D with
    | .error e => .error e
    | .ok _ => .ok (s.set leaf.index leaf.hash)
  getNodeWithHash := fun s idx h =>
    match boundary_check idx D with
    | .error e => .error e
    | .ok _ =>
        if listGet s idx = h then
          .ok ⟨listGet s idx, idx,
               some (listGet s (2 * idx + 1)), some (listGet s (2 * idx + 2))⟩
        else .error ⟨zeroHash, idx, .InvalidHash⟩
  getRootHash := fun s => listGet s 0
  updateRootHash := fun s h => s.set 0 h

/-- Modelled from the spec: a storage backend whose set_parent hook can fail
(every hook returns a Result in the trait, and the spec treats backend calls
as synchronous calls that may fail).  It behaves like the array backend but
set_parent succeeds only while a write budget lasts. -/
def failBackend (H : Type) [DecidableEq H] [Inhabited H]
    (f : H → H → H) (D : Nat) : Backend H (List H × Nat) where
  hashFn := f
  setParent := fun s idx h _ _ =>
    match boundary_check idx D with
    | .error e => .error e
    | .ok _ =>
        match s.2 with
        | 0 => .error ⟨zeroHash, idx, .InvalidHash⟩
        | b + 1 => .ok (s.1.set idx h, b)
  setLeaf := fun s leaf =>
    match leaf_check leaf.index D with
    | .error e => .error e
    | .ok _ => .ok (s.1.set leaf.index leaf.hash, s.2)
  getNodeWithHash := fun s idx h =>
    match boundary_check idx D with
    | .error e => .error e
    | .ok _ =>
        if listGet s.1 idx = h then
          .ok ⟨listGet s.1 idx, idx,
               some (listGet s.1 (2 * idx + 1)),
               some (listGet s.1 (2 * idx + 2))⟩
        else .error ⟨zeroHash, idx, .InvalidHash⟩
  getRootHash := fun s => listGet s.1 0
  updateRootHash := fun s h => (s.1.set 0 h, s.2)

/-! ## Specification-side descriptions used by the claims -/

/-- The spec's bottom-up recomputation fold: consume a sibling list
(leaf-adjacent sibling first), at each level placing the running hash as the
right operand when the running offset is odd and as the left operand when it
is even, halving the offset.  Applied to the reversed assist list this is the
root recomputation that write_leaf_with_proof performs. -/
def spec_recompute {H : Type} (f : H → H → H) : Nat → H → List H → H
  | _, h, [] => h
  | p, h, a :: rest =>
      spec_recompute f (p / 2) (if p % 2 = 1 then f a h else f h a) rest

/-- Ancestor of the leaf with local offset off (depth D) at level k:
the global index 2^k - 1 + off / 2^(D-k). -/
def anc (D off k : Nat) : Nat := 2 ^ k - 1 + off / 2 ^ (D - k)

/-- The node data the array backend reconstructs for index i. -/
def mkNode {H : Type} [Inhabited H] (s : List H) (i : Nat) :
    MerkleNodeData H :=
  ⟨listGet s i, i, some (listGet s (2 * i + 1)), some (listGet s (2 * i + 2))⟩

/-- The assist list get_leaf_with_proof produces on the array backend: for
each level from just below the root down to the leaf, the stored hash of the
sibling of the on-path ancestor. -/
def assist_ideal {H : Type} [Inhabited H] (s : List H) (D off : Nat) :
    List H :=
  (List.range D).map fun t => listGet s (get_sibling_index (anc D off (t + 1)))

/-! ## The byte-payload hash (poseidon.rs) -/

/-- Modelled from the spec: the service error enum (errors.rs, outside src/);
only the argument-validity variant is needed here. -/
inductive ServiceError where
  | InvalidArgument (msg : String)
deriving DecidableEq

/-- The error message used by poseidon.rs for malformed payloads. -/
def invalidMsg : String :=
  "Invalid data to hash, must be an array of field elements"

/-- The BN254 scalar-field modulus (the order of Fr in halo2). -/
def rBN : Nat :=
  21888242871839275222246405745257275088548364400416034343698204186575808495617

/-- Little-endian byte decoding: the integer value of a byte list. -/
def leBytesToNat : List Nat → Nat
  | [] => 0
  | b :: rest => b + 256 * leBytesToNat rest

/-- Little-endian byte encoding of n into k bytes (Fr::to_repr). -/
def natToLeBytes : Nat → Nat → List Nat
  | 0, _ => []
  | k + 1, n => n % 256 :: natToLeBytes k (n / 256)

/-- Fuel-driven chunking: split a list into consecutive 32-element chunks
(data_to_hash.chunks(num_of_bytes) in poseidon.rs).  The fuel is the list
length, which always suffices since every step consumes at least one
element. -/
def chunks32Aux : Nat → List Nat → List (List Nat)
  | 0, _ => []
  | _, [] => []
  | fuel + 1, l => l.take 32 :: chunks32Aux fuel (l.drop 32)

/-- Split a byte list into its 32-byte chunks. -/
def chunks32 (l : List Nat) : List (List Nat) := chunks32Aux l.length l

/-- The chunk-decoding collect of poseidon.rs: each 32-byte chunk is read as
Fr::from_repr (little-endian; fails unless the value is a canonical field
element, i.e. below the modulus); the first failure aborts with
InvalidArgument. -/
def decodeFrs : List (List Nat) → Except ServiceError (List Nat)
  | [] => .ok []
  | c :: rest =>
      if leBytesToNat c < rBN then
        match decodeFrs rest with
        | .ok vs => .ok (leBytesToNat c :: vs)
        | .error e => .error e
      else .error (.InvalidArgument invalidMsg)

/-- hash of poseidon.rs, with the Poseidon sponge itself (an external crate)
abstracted as the parameter f: reject payloads whose length is not a multiple
of 32, decode each 32-byte chunk as a field element, feed the list of
elements to the hasher and return the 32-byte representation of the
squeeze. -/
def hash (f : List Nat → Nat) (data : List Nat) :
    Except ServiceError (List Nat) :=
  if data.length % 32 ≠ 0 then .error (.InvalidArgument invalidMsg)
  else
    match decodeFrs (chunks32 data) with
    | .error e => .error e
    | .ok frs => .ok (natToLeBytes 32 (f frs))

/-! ## Decidable equality for results -/

deriving instance DecidableEq for Except

/-! ## Concrete instances used by the claim theorems -/

/-- A deliberately non-commutative toy combine, 2a+b, order-sensitive so that
left/right operand order is observable. -/
def affHash : Nat → Nat → Nat := fun a b => 2 * a + b

/-- The consistent depth-2 start tree for the round-trip counterexample:
leaves (0,0,1,0), internal hashes under affHash. -/
def treeC1 : List Nat := [2, 0, 2, 0, 0, 1, 0]

/-- A consistent depth-2 start tree whose assist for leaf 3 is [3, 4]. -/
def treeC2 : List Nat := [11, 4, 3, 0, 4, 1, 1]

/-- The depth-3 all-zero tree of the additive scenario. -/
def store0 : List Nat := List.replicate 15 0

/-- One write of the additive depth-3 scenario: set leaf i to value v. -/
def addWrite (s : List Nat) (i v : Nat) :
    List Nat × Except MerkleError (MerkleProof Nat) :=
  set_leaf_with_proof (arrayBackend Nat (fun a b => a + b) 3) 3 s
    ⟨v, i, none, none⟩

/-- Check one step of the additive scenario: the write succeeds, its proof
records the expected root, the stored root agrees, and the returned proof
verifies against that root. -/
def addWriteOk (s : List Nat) (i v root : Nat) : Bool :=
  match addWrite s i v with
  | (s2, .ok p) =>
      decide (p.root = root) && decide (s2.getD 0 0 = root) &&
      decide (verify_proof (fun a b => a + b) p = .ok true)
  | (_, .error _) => false

/-- The store produced by the write loop of set_leaf_with_proof on the array
backend: at fuel k+1 the combined hash for depth k is stored at global index
p/2 + 2^k - 1, and the loop continues one level up. -/
def apply_writes {H : Type} [Inhabited H] (f : H → H → H) (assist : List H) :
    Nat → List H → Nat → H → List H
  | 0, s, _, _ => s
  | k + 1, s, p, h =>
      let a := assist.getD k default
      let lr := if p % 2 = 1 then (a, h) else (h, a)
      let h2 := f lr.1 lr.2
      apply_writes f assist k (s.set (p / 2 + (2 ^ k - 1)) h2) (p / 2) h2

/-! # Theorems -/

/-! ## List and arithmetic helpers -/

theorem listGet_set_ne {H : Type} [Inhabited H] (s : List H) (i j : Nat)
    (v : H) (h : i ≠ j) : listGet (s.set j v) i = listGet s i := by
  unfold listGet
  rw [List.getD_eq_getElem?_getD, List.getD_eq_getElem?_getD,
    List.getElem?_set_ne (fun he => h he.symm)]

theorem listGet_set_self {H : Type} [Inhabited H] (s : List H) (j : Nat)
    (v : H) (h : j < s.length) : listGet (s.set j v) j = v := by
  unfold listGet
  rw [List.getD_eq_getElem?_getD, List.getElem?_set_eq_of_lt _ h]
  rfl

theorem div2_div_pow (p a : Nat) : p / 2 / 2 ^ a = p / 2 ^ (a + 1) := by
  rw [Nat.div_div_eq_div_mul, pow_succ, Nat.mul_comm]

theorem take_succ_reverse {H : Type} [Inhabited H] (l : List H) (k : Nat)
    (hk : k < l.length) :
    (l.take (k + 1)).reverse = l.getD k default :: (l.take k).reverse := by
  rw [List.take_succ, List.getElem?_eq_getElem hk, List.getD_eq_getElem l default hk]
  simp [List.reverse_append]

theorem take_succ_eq {H : Type} [Inhabited H] (l : List H) (k : Nat)
    (hk : k < l.length) :
    l.take (k + 1) = l.take k ++ [l.getD k default] := by
  rw [List.take_succ, List.getElem?_eq_getElem hk, List.getD_eq_getElem l default hk]
  rfl

/-! ## ilog2 -/

theorem ilog2Aux_eq : ∀ (fuel n D : Nat), n ≤ fuel → 2 ^ D ≤ n →
    n < 2 ^ (D + 1) → ilog2Aux fuel n = D := by
  intro fuel
  induction fuel with
  | zero =>
      intro n D hf h1 _
      have := Nat.two_pow_pos D
      omega
  | succ fuel ih =>
      intro n D hf h1 h2
      cases D with
      | zero =>
          have : n = 1 := by
            norm_num at h1 h2
            omega
          simp [ilog2Aux, this]
      | succ d =>
          have hp : 0 < 2 ^ d := Nat.two_pow_pos d
          have hd1 : 2 ^ (d + 1) = 2 ^ d * 2 := by rw [pow_succ]
          have hd2 : 2 ^ (d + 2) = 2 ^ (d + 1) * 2 := by rw [pow_succ]
          have hn2 : 2 ≤ n := by omega
          have hstep : ilog2Aux (fuel + 1) n = ilog2Aux fuel (n / 2) + 1 := by
            simp [ilog2Aux, hn2]
          rw [hstep]
          have hrec : ilog2Aux fuel (n / 2) = d := by
            apply ih
            · have : n / 2 < n := Nat.div_lt_self (by omega) (by omega)
              omega
            · rw [Nat.le_div_iff_mul_le (by norm_num), ← hd1]
              exact h1
            · rw [Nat.div_lt_iff_lt_mul (by norm_num), ← hd2]
              exact h2
          omega

theorem ilog2_spec (n D : Nat) (h1 : 2 ^ D ≤ n) (h2 : n < 2 ^ (D + 1)) :
    ilog2 n = D :=
  ilog2Aux_eq n n D le_rfl h1 h2

theorem leaf_ilog2 (D index : Nat) (hlo : 2 ^ D - 1 ≤ index)
    (hhi : index ≤ 2 ^ (D + 1) - 2) : ilog2 (index + 1) = D := by
  have hp : 0 < 2 ^ D := Nat.two_pow_pos D
  have hd : 2 ^ (D + 1) = 2 ^ D * 2 := by rw [pow_succ]
  exact ilog2_spec (index + 1) D (by omega) (by omega)

theorem leaf_get_offset (D index : Nat) (hlo : 2 ^ D - 1 ≤ index)
    (hhi : index ≤ 2 ^ (D + 1) - 2) :
    get_offset index = index - (2 ^ D - 1) := by
  unfold get_offset
  rw [leaf_ilog2 D index hlo hhi]

/-! ## Node classification and checks -/

theorem boundary_check_ok (idx D : Nat) (h : idx < 2 ^ (D + 1) - 1) :
    boundary_check idx D = .ok () := by
  have hne : get_node_type idx D ≠ .NodeInvalid := by
    unfold get_node_type
    rw [if_neg (by omega)]
    split <;> simp
  unfold boundary_check
  rw [if_neg (by simpa using hne)]

theorem leaf_check_ok (idx D : Nat) (hlo : 2 ^ D - 1 ≤ idx)
    (hhi : idx ≤ 2 ^ (D + 1) - 2) : leaf_check idx D = .ok () := by
  have hp : 0 < 2 ^ D := Nat.two_pow_pos D
  have hd : 2 ^ (D + 1) = 2 ^ D * 2 := by rw [pow_succ]
  have heq : get_node_type idx D = .NodeLeaf := by
    unfold get_node_type
    rw [if_neg (by omega), if_pos (by omega)]
  unfold leaf_check
  rw [if_neg (by simp [heq])]

theorem leaf_check_err (idx D : Nat)
    (h : idx < 2 ^ D - 1 ∨ 2 ^ (D + 1) - 1 ≤ idx) :
    leaf_check idx D = .error ⟨zeroHash, idx, .InvalidLeafIndex⟩ := by
  have hne : get_node_type idx D ≠ .NodeLeaf := by
    unfold get_node_type
    rcases h with h | h
    · rw [if_neg (by have hp : 0 < 2 ^ D := Nat.two_pow_pos D
                     have hd : 2 ^ (D + 1) = 2 ^ D * 2 := by rw [pow_succ]
                     omega),
        if_neg (by omega)]
      simp
    · rw [if_pos h]
      simp
  unfold leaf_check
  rw [if_pos (by simpa using hne)]

/-! ## The ancestor-path formula -/

theorem anc_zero (D off : Nat) (h : off < 2 ^ D) : anc D off 0 = 0 := by
  unfold anc
  simp [Nat.div_eq_of_lt h]

theorem anc_last (D off : Nat) : anc D off D = 2 ^ D - 1 + off := by
  unfold anc
  simp

theorem anc_succ (D off j : Nat) (hj : j < D) :
    anc D off (j + 1) = 2 * anc D off j + 1 + (off / 2 ^ (D - (j + 1))) % 2 := by
  unfold anc
  have he : D - j = (D - (j + 1)) + 1 := by omega
  have hqp : off / 2 ^ (D - j) = off / 2 ^ (D - (j + 1)) / 2 := by
    rw [he, ← div2_div_pow]
    rw [Nat.div_div_eq_div_mul, Nat.div_div_eq_div_mul, Nat.mul_comm]
  rw [hqp]
  have h1 : 0 < 2 ^ j := Nat.two_pow_pos j
  have h2 : 2 ^ (j + 1) = 2 ^ j * 2 := by rw [pow_succ]
  have h3 := Nat.div_add_mod (off / 2 ^ (D - (j + 1))) 2
  omega

theorem anc_le (D off j : Nat) (hoff : off < 2 ^ D) (hj : j ≤ D) :
    anc D off j ≤ 2 ^ (j + 1) - 2 := by
  unfold anc
  have hq : off / 2 ^ (D - j) < 2 ^ j := by
    apply Nat.div_lt_of_lt_mul
    have : 2 ^ (D - j) * 2 ^ j = 2 ^ D := by
      rw [← pow_add]
      congr 1
      omega
    omega
  have h1 : 0 < 2 ^ j := Nat.two_pow_pos j
  have h2 : 2 ^ (j + 1) = 2 ^ j * 2 := by rw [pow_succ]
  omega

/-! ## get_path -/

theorem get_path_loop_eq : ∀ (r h p : Nat) (acc : List Nat), r ≤ h + 1 →
    get_path_loop r h p acc
      = ((List.range r).map fun t =>
          2 ^ (h + 1 + t - r) - 1 + p / 2 ^ (r - 1 - t)) ++ acc := by
  intro r
  induction r with
  | zero => intro h p acc _; simp [get_path_loop]
  | succ r ih =>
      intro h p acc hr
      have hrh : r ≤ (h - 1) + 1 := by omega
      show get_path_loop r (h - 1) (p / 2) ((2 ^ h - 1 + p) :: acc) = _
      rw [ih (h - 1) (p / 2) ((2 ^ h - 1 + p) :: acc) hrh]
      have hmap : (List.range r).map
            (fun t => 2 ^ ((h - 1) + 1 + t - r) - 1 + p / 2 / 2 ^ (r - 1 - t))
          = (List.range r).map
            (fun t => 2 ^ (h + 1 + t - (r + 1)) - 1 + p / 2 ^ (r + 1 - 1 - t)) := by
        apply List.map_congr_left
        intro t ht
        rw [List.mem_range] at ht
        have he1 : (h - 1) + 1 + t - r = h + 1 + t - (r + 1) := by omega
        have he2 : (r - 1 - t) + 1 = r + 1 - 1 - t := by omega
        rw [he1, div2_div_pow, he2]
      rw [hmap]
      have hlast : (2 : Nat) ^ (h + 1 + r - (r + 1)) - 1 + p / 2 ^ (r + 1 - 1 - r)
          = 2 ^ h - 1 + p := by
        have he1 : h + 1 + r - (r + 1) = h := by omega
        have he2 : r + 1 - 1 - r = 0 := by omega
        rw [he1, he2, pow_zero, Nat.div_one]
      calc ((List.range r).map fun t =>
              2 ^ (h + 1 + t - (r + 1)) - 1 + p / 2 ^ (r + 1 - 1 - t))
            ++ (2 ^ h - 1 + p) :: acc
          = (((List.range r).map fun t =>
              2 ^ (h + 1 + t - (r + 1)) - 1 + p / 2 ^ (r + 1 - 1 - t))
            ++ [2 ^ h - 1 + p]) ++ acc := by
            rw [List.append_assoc]
            rfl
        _ = ((List.range (r + 1)).map fun t =>
              2 ^ (h + 1 + t - (r + 1)) - 1 + p / 2 ^ (r + 1 - 1 - t)) ++ acc := by
            rw [List.range_succ, List.map_append, List.map_cons, List.map_nil, hlast]

theorem assist_ideal_length {H : Type} [Inhabited H] (s : List H)
    (D off : Nat) : (assist_ideal s D off).length = D := by
  unfold assist_ideal
  simp

theorem arrayBackend_getNode {H : Type} [DecidableEq H] [Inhabited H]
    (f : H → H → H) (D : Nat) (s : List H) (idx : Nat)
    (hb : idx < 2 ^ (D + 1) - 1) :
    (arrayBackend H f D).getNodeWithHash s idx (listGet s idx)
      = .ok (mkNode s idx) := by
  simp only [arrayBackend]
  rw [boundary_check_ok idx D hb]
  simp [mkNode]

theorem arrayBackend_setParent {H : Type} [DecidableEq H] [Inhabited H]
    (f : H → H → H) (D : Nat) (s : List H) (idx : Nat) (h l r : H)
    (hb : idx < 2 ^ (D + 1) - 1) :
    (arrayBackend H f D).setParent s idx h l r = .ok (s.set idx h) := by
  simp only [arrayBackend]
  rw [boundary_check_ok idx D hb]

theorem arrayBackend_setLeaf {H : Type} [DecidableEq H] [Inhabited H]
    (f : H → H → H) (D : Nat) (s : List H) (leaf : MerkleNodeData H)
    (hlo : 2 ^ D - 1 ≤ leaf.index) (hhi : leaf.index ≤ 2 ^ (D + 1) - 2) :
    (arrayBackend H f D).setLeaf s leaf = .ok (s.set leaf.index leaf.hash) := by
  simp only [arrayBackend]
  rw [leaf_check_ok leaf.index D hlo hhi]

theorem gsi_left (a : Nat) : get_sibling_index (2 * a + 1) = 2 * a + 2 := by
  unfold get_sibling_index
  rw [if_pos (by omega)]

theorem gsi_right (a : Nat) : get_sibling_index (2 * a + 2) = 2 * a + 1 := by
  unfold get_sibling_index
  rw [if_neg (by omega)]
  omega

theorem get_leaf_loop_step_left {H : Type} [DecidableEq H] [Inhabited H]
    (f : H → H → H) (D : Nat) (s : List H) (a : Nat) (rest : List Nat)
    (hb : 2 * a + 2 < 2 ^ (D + 1) - 1) :
    get_leaf_loop (arrayBackend H f D) s ((2 * a + 1) :: rest) a (mkNode s a)
      = match get_leaf_loop (arrayBackend H f D) s rest (2 * a + 1)
            (mkNode s (2 * a + 1)) with
        | .error e => .error e
        | .ok (assist, fin) => .ok (listGet s (2 * a + 2) :: assist, fin) := by
  have h1 := arrayBackend_getNode f D s (2 * a + 2) hb
  have h2 := arrayBackend_getNode f D s (2 * a + 1) (by omega)
  simp only [get_leaf_loop, if_pos (show (a + 1) * 2 = 2 * a + 1 + 1 by omega),
    mkNode, Option.getD_some, gsi_left]
  simp only [mkNode] at h1 h2
  rw [h1, h2]

theorem get_leaf_loop_step_right {H : Type} [DecidableEq H] [Inhabited H]
    (f : H → H → H) (D : Nat) (s : List H) (a : Nat) (rest : List Nat)
    (hb : 2 * a + 2 < 2 ^ (D + 1) - 1) :
    get_leaf_loop (arrayBackend H f D) s ((2 * a + 2) :: rest) a (mkNode s a)
      = match get_leaf_loop (arrayBackend H f D) s rest (2 * a + 2)
            (mkNode s (2 * a + 2)) with
        | .error e => .error e
        | .ok (assist, fin) => .ok (listGet s (2 * a + 1) :: assist, fin) := by
  have h1 := arrayBackend_getNode f D s (2 * a + 2) hb
  have h2 := arrayBackend_getNode f D s (2 * a + 1) (by omega)
  simp only [get_leaf_loop, if_neg (show ¬ (a + 1) * 2 = 2 * a + 2 + 1 by omega),
    mkNode, Option.getD_some, gsi_right]
  simp only [mkNode] at h1 h2
  rw [h1, h2]

theorem get_leaf_loop_ok {H : Type} [DecidableEq H] [Inhabited H]
    (f : H → H → H) (D : Nat) (s : List H) (off : Nat) (hoff : off < 2 ^ D) :
    ∀ (m j : Nat), j + m = D →
    get_leaf_loop (arrayBackend H f D) s
        ((List.range m).map fun t => anc D off (j + 1 + t))
        (anc D off j) (mkNode s (anc D off j))
      = .ok ((List.range m).map fun t =>
               listGet s (get_sibling_index (anc D off (j + 1 + t))),
             mkNode s (anc D off D)) := by
  intro m
  induction m with
  | zero =>
      intro j hj
      have hjD : j = D := by omega
      subst hjD
      simp [get_leaf_loop]
  | succ m ih =>
      intro j hj
      have hjD : j < D := by omega
      have hult : anc D off j ≤ 2 ^ (j + 1) - 2 := anc_le D off j hoff (by omega)
      have hstep := anc_succ D off j hjD
      have hpow1 : 2 ^ (j + 2) = 2 ^ (j + 1) * 2 := by rw [pow_succ]
      have hpow2 : 2 ^ (j + 2) ≤ 2 ^ (D + 1) :=
        Nat.pow_le_pow_right (by norm_num) (by omega)
      have hpos : 0 < 2 ^ (j + 1) := Nat.two_pow_pos (j + 1)
      have hb : 2 * anc D off j + 2 < 2 ^ (D + 1) - 1 := by omega
      have hfun1 : (fun t => anc D off (j + 1 + t)) ∘ Nat.succ
          = fun t => anc D off (j + 1 + 1 + t) := by
        funext t
        simp only [Function.comp_apply]
        have he : j + 1 + t.succ = j + 1 + 1 + t := by omega
        rw [he]
      have hfun2 : (fun t => listGet s (get_sibling_index (anc D off (j + 1 + t))))
            ∘ Nat.succ
          = fun t => listGet s (get_sibling_index (anc D off (j + 1 + 1 + t))) := by
        funext t
        simp only [Function.comp_apply]
        have he : j + 1 + t.succ = j + 1 + 1 + t := by omega
        rw [he]
      rw [List.range_succ_eq_map, List.map_cons, List.map_map, List.map_cons,
        List.map_map, hfun1, hfun2]
      simp only [Nat.add_zero]
      rcases Nat.mod_two_eq_zero_or_one (off / 2 ^ (D - (j + 1))) with hq | hq
      · have hchild : anc D off (j + 1) = 2 * anc D off j + 1 := by omega
        rw [hchild, gsi_left, get_leaf_loop_step_left f D s (anc D off j) _ hb,
          ← hchild, ih (j + 1) (by omega)]
      · have hchild : anc D off (j + 1) = 2 * anc D off j + 2 := by omega
        rw [hchild, gsi_right, get_leaf_loop_step_right f D s (anc D off j) _ hb,
          ← hchild, ih (j + 1) (by omega)]

theorem get_path_ok (D index : Nat) (hlo : 2 ^ D - 1 ≤ index)
    (hhi : index ≤ 2 ^ (D + 1) - 2) :
    get_path index D
      = .ok ((List.range D).map fun t => anc D (index - (2 ^ D - 1)) (t + 1)) := by
  unfold get_path
  rw [leaf_check_ok index D hlo hhi]
  simp only [leaf_ilog2 D index hlo hhi]
  rw [get_path_loop_eq D D (index - (2 ^ D - 1)) [] (by omega), List.append_nil]
  congr 1
  apply List.map_congr_left
  intro t ht
  rw [List.mem_range] at ht
  unfold anc
  have he1 : D + 1 + t - D = t + 1 := by omega
  have he2 : D - 1 - t = D - (t + 1) := by omega
  rw [he1, he2]

theorem get_leaf_with_proof_ok {H : Type} [DecidableEq H] [Inhabited H]
    (f : H → H → H) (D : Nat) (s : List H) (index : Nat)
    (hlo : 2 ^ D - 1 ≤ index) (hhi : index ≤ 2 ^ (D + 1) - 2) :
    get_leaf_with_proof (arrayBackend H f D) D s index
      = .ok (mkNode s index,
             ⟨listGet s index, listGet s 0,
              assist_ideal s D (index - (2 ^ D - 1)), index⟩) := by
  have hp : 0 < 2 ^ D := Nat.two_pow_pos D
  have hd : 2 ^ (D + 1) = 2 ^ D * 2 := by rw [pow_succ]
  set off := index - (2 ^ D - 1) with hoffdef
  have hoff : off < 2 ^ D := by omega
  have hloop := get_leaf_loop_ok f D s off hoff D 0 (by omega)
  rw [anc_zero D off hoff] at hloop
  simp only [show ∀ t : Nat, 0 + 1 + t = t + 1 from fun t => by omega] at hloop
  rw [anc_last D off] at hloop
  have hidx : 2 ^ D - 1 + off = index := by omega
  rw [hidx] at hloop
  unfold get_leaf_with_proof
  rw [leaf_check_ok index D hlo hhi, get_path_ok D index hlo hhi]
  show (match (arrayBackend H f D).getNodeWithHash s 0
          ((arrayBackend H f D).getRootHash s) with
        | Except.error e => Except.error e
        | Except.ok accNode =>
            match get_leaf_loop (arrayBackend H f D) s
                ((List.range D).map fun t => anc D off (t + 1)) 0 accNode with
            | Except.error e => Except.error e
            | Except.ok (assist, node) =>
                Except.ok (node, (⟨node.hash, (arrayBackend H f D).getRootHash s,
                            assist, index⟩ : MerkleProof H))) = _
  have hroot : (arrayBackend H f D).getRootHash s = listGet s 0 := rfl
  rw [hroot, arrayBackend_getNode f D s 0 (by omega)]
  show (match get_leaf_loop (arrayBackend H f D) s
          ((List.range D).map fun t => anc D off (t + 1)) 0 (mkNode s 0) with
        | Except.error e => Except.error e
        | Except.ok (assist, node) =>
            Except.ok (node, (⟨node.hash, listGet s 0, assist, index⟩ : MerkleProof H))) = _
  rw [hloop]
  show Except.ok (mkNode s index,
        (⟨(mkNode s index).hash, listGet s 0,
         (List.range D).map fun t => listGet s (get_sibling_index (anc D off (t + 1))),
         index⟩ : MerkleProof H)) = _
  rfl

/-! ## The write loop -/

theorem apply_writes_length {H : Type} [Inhabited H] (f : H → H → H)
    (assist : List H) : ∀ (k : Nat) (s : List H) (p : Nat) (h : H),
    (apply_writes f assist k s p h).length = s.length := by
  intro k
  induction k with
  | zero => intro s p h; rfl
  | succ k ih =>
      intro s p h
      simp only [apply_writes]
      rw [ih, List.length_set]

theorem set_leaf_loop_eq {H : Type} [DecidableEq H] [Inhabited H]
    (f : H → H → H) (D : Nat) (assist : List H) :
    ∀ (k : Nat) (s : List H) (p : Nat) (h : H), k ≤ D → k ≤ assist.length →
    p < 2 ^ k →
    set_leaf_loop (arrayBackend H f D) assist k s p h
      = (apply_writes f assist k s p h,
         .ok (spec_recompute f p h ((assist.take k).reverse))) := by
  intro k
  induction k with
  | zero =>
      intro s p h _ _ _
      simp [set_leaf_loop, apply_writes, spec_recompute]
  | succ k ih =>
      intro s p h hk hka hp
      have hkl : k < assist.length := by omega
      have hp2c : p / 2 < 2 ^ k := by
        have h2 : 2 ^ (k + 1) = 2 ^ k * 2 := by rw [pow_succ]
        rw [Nat.div_lt_iff_lt_mul (by norm_num : (0:Nat) < 2)]
        omega
      have hidx : p / 2 + (2 ^ k - 1) < 2 ^ (D + 1) - 1 := by
        have hle : 2 ^ (k + 1) ≤ 2 ^ (D + 1) :=
          Nat.pow_le_pow_right (by norm_num) (by omega)
        have h2 : 2 ^ (k + 1) = 2 ^ k * 2 := by rw [pow_succ]
        have hpos : 0 < 2 ^ k := Nat.two_pow_pos k
        omega
      have htk := take_succ_reverse assist k hkl
      rcases Nat.mod_two_eq_zero_or_one p with hpar | hpar
      · have hcond : ¬ (p % 2 = 1) := by omega
        simp only [set_leaf_loop, apply_writes, if_neg hcond]
        rw [show (arrayBackend H f D).hashFn = f from rfl,
          arrayBackend_setParent f D s (p / 2 + (2 ^ k - 1)) _ _ _ hidx]
        refine Eq.trans (ih (s.set (p / 2 + (2 ^ k - 1)) (f h (assist.getD k default)))
          (p / 2) (f h (assist.getD k default)) (by omega) (by omega) hp2c) ?_
        rw [htk]
        simp only [spec_recompute, if_neg hcond]
      · simp only [set_leaf_loop, apply_writes, if_pos hpar]
        rw [show (arrayBackend H f D).hashFn = f from rfl,
          arrayBackend_setParent f D s (p / 2 + (2 ^ k - 1)) _ _ _ hidx]
        refine Eq.trans (ih (s.set (p / 2 + (2 ^ k - 1)) (f (assist.getD k default) h))
          (p / 2) (f (assist.getD k default) h) (by omega) (by omega) hp2c) ?_
        rw [htk]
        simp only [spec_recompute, if_pos hpar]


theorem apply_writes_untouched {H : Type} [Inhabited H] (f : H → H → H)
    (assist : List H) : ∀ (k : Nat) (s : List H) (p : Nat) (h : H) (i : Nat),
    (∀ d, d < k → i ≠ p / 2 ^ (k - d) + (2 ^ d - 1)) →
    listGet (apply_writes f assist k s p h) i = listGet s i := by
  intro k
  induction k with
  | zero => intro s p h i _; rfl
  | succ k ih =>
      intro s p h i hi
      have hik : i ≠ p / 2 + (2 ^ k - 1) := by
        have := hi k (by omega)
        have he : k + 1 - k = 1 := by omega
        rw [he, pow_one] at this
        exact this
      simp only [apply_writes]
      rw [ih]
      · exact listGet_set_ne _ _ _ _ hik
      · intro d hd
        have := hi d (by omega)
        have he : k + 1 - d = (k - d) + 1 := by omega
        rw [he, ← div2_div_pow] at this
        exact this

theorem apply_writes_written {H : Type} [Inhabited H] (f : H → H → H)
    (assist : List H) : ∀ (k : Nat) (s : List H) (p : Nat) (h : H),
    p < 2 ^ k → k ≤ assist.length → 2 ^ k - 1 ≤ s.length →
    ∀ d, d < k →
    listGet (apply_writes f assist k s p h) (p / 2 ^ (k - d) + (2 ^ d - 1))
      = spec_recompute f p h (((assist.take k).drop d).reverse) := by
  intro k
  induction k with
  | zero => intro s p h _ _ _ d hd; omega
  | succ k ih =>
      intro s p h hp hka hsl d hd
      have hkl : k < assist.length := by omega
      have hpos : 0 < 2 ^ k := Nat.two_pow_pos k
      have hpk : 2 ^ (k + 1) = 2 ^ k * 2 := by rw [pow_succ]
      have hp2c : p / 2 < 2 ^ k := by
        rw [Nat.div_lt_iff_lt_mul (by norm_num : (0:Nat) < 2)]
        omega
      have htk := take_succ_eq assist k hkl
      have hdrop : ∀ d2, d2 ≤ k →
          (assist.take (k + 1)).drop d2
            = (assist.take k).drop d2 ++ [assist.getD k default] := by
        intro d2 hd2
        rw [htk, List.drop_append_eq_append_drop]
        have hlt : (assist.take k).length = k := by
          rw [List.length_take]
          omega
        have hz : d2 - (assist.take k).length = 0 := by omega
        rw [hz, List.drop_zero]
      rcases Nat.lt_or_ge d k with hdk | hdk
      · -- d < k: the write at depth d happens inside the recursive call
        have he : k + 1 - d = (k - d) + 1 := by omega
        rw [he, ← div2_div_pow]
        simp only [apply_writes]
        rw [ih _ _ _ hp2c (by omega) (by rw [List.length_set]; omega) d hdk]
        rw [hdrop d (by omega), List.reverse_append, List.reverse_singleton]
        simp only [List.singleton_append, spec_recompute]
        rcases Nat.mod_two_eq_zero_or_one p with hpar | hpar <;> simp [hpar]
      · -- d = k: the first write of this call, untouched afterwards
        have hdeq : d = k := by omega
        subst hdeq
        have he : d + 1 - d = 1 := by omega
        rw [he, pow_one]
        simp only [apply_writes]
        rw [apply_writes_untouched]
        · rw [listGet_set_self]
          · rw [hdrop d (by omega)]
            have hnil : (assist.take d).drop d = [] := by
              apply List.drop_eq_nil_of_le
              rw [List.length_take]
              omega
            rw [hnil, List.nil_append, List.reverse_singleton]
            simp only [spec_recompute]
            rcases Nat.mod_two_eq_zero_or_one p with hpar | hpar <;> simp [hpar]
          · omega
        · intro d2 hd2
          have hq : p / 2 / 2 ^ (d - d2) < 2 ^ d2 := by
            apply Nat.div_lt_of_lt_mul
            have hsplit : 2 ^ (d - d2) * 2 ^ d2 = 2 ^ d := by
              rw [← pow_add]
              congr 1
              omega
            omega
          have hp2 : 2 ^ (d2 + 1) = 2 ^ d2 * 2 := by rw [pow_succ]
          have hled : 2 ^ (d2 + 1) ≤ 2 ^ d :=
            Nat.pow_le_pow_right (by norm_num) (by omega)
          have hposd : 0 < 2 ^ d2 := Nat.two_pow_pos d2
          omega



theorem set_leaf_with_proof_eq {H : Type} [DecidableEq H] [Inhabited H]
    (f : H → H → H) (D : Nat) (s : List H) (leaf : MerkleNodeData H)
    (hlo : 2 ^ D - 1 ≤ leaf.index) (hhi : leaf.index ≤ 2 ^ (D + 1) - 2) :
    set_leaf_with_proof (arrayBackend H f D) D s leaf
      = ((apply_writes f (assist_ideal s D (leaf.index - (2 ^ D - 1))) D
            (s.set leaf.index leaf.hash) (leaf.index - (2 ^ D - 1)) leaf.hash).set 0
            (spec_recompute f (leaf.index - (2 ^ D - 1)) leaf.hash
              (assist_ideal s D (leaf.index - (2 ^ D - 1))).reverse),
         .ok ⟨leaf.hash,
              spec_recompute f (leaf.index - (2 ^ D - 1)) leaf.hash
                (assist_ideal s D (leaf.index - (2 ^ D - 1))).reverse,
              assist_ideal s D (leaf.index - (2 ^ D - 1)), leaf.index⟩) := by
  have hp : 0 < 2 ^ D := Nat.two_pow_pos D
  have hd : 2 ^ (D + 1) = 2 ^ D * 2 := by rw [pow_succ]
  set off := leaf.index - (2 ^ D - 1) with hoffdef
  set assist := assist_ideal s D off with hassistdef
  have hoff : off < 2 ^ D := by omega
  have hlen2 : assist.length = D := assist_ideal_length s D off
  have htD : assist.take D = assist := by rw [← hlen2, List.take_length]
  have hglp := get_leaf_with_proof_ok f D s leaf.index hlo hhi
  simp only [set_leaf_with_proof, hglp, arrayBackend_setLeaf f D s leaf hlo hhi,
    leaf_get_offset D leaf.index hlo hhi,
    set_leaf_loop_eq f D assist D (s.set leaf.index leaf.hash) off leaf.hash
      le_rfl (by omega) hoff, htD]
  rfl



/-! ## Remaining protocol helper lemmas -/

theorem c6_helper_read_error {H : Type} [DecidableEq H] [Inhabited H]
    (f : H → H → H) (D : Nat) (s : List H) (index : Nat)
    (h : index < 2 ^ D - 1 ∨ 2 ^ (D + 1) - 1 ≤ index) :
    get_leaf_with_proof (arrayBackend H f D) D s index
      = .error ⟨zeroHash, index, .InvalidLeafIndex⟩ := by
  unfold get_leaf_with_proof
  rw [leaf_check_err index D h]

theorem decodeFrs_ok (l : List (List Nat))
    (h : ∀ c ∈ l, leBytesToNat c < rBN) :
    decodeFrs l = .ok (l.map leBytesToNat) := by
  induction l with
  | nil => rfl
  | cons c rest ih =>
      have hc : leBytesToNat c < rBN := h c (by simp)
      unfold decodeFrs
      rw [if_pos hc, ih (fun x hx => h x (List.mem_cons_of_mem c hx))]
      rfl

theorem decodeFrs_err (l : List (List Nat))
    (h : ∃ c ∈ l, rBN ≤ leBytesToNat c) :
    decodeFrs l = .error (.InvalidArgument invalidMsg) := by
  induction l with
  | nil => simp at h
  | cons c rest ih =>
      rcases h with ⟨x, hx, hxv⟩
      rcases List.mem_cons.mp hx with heq | hx2
      · unfold decodeFrs
        subst heq
        rw [if_neg (by omega)]
      · by_cases hc : leBytesToNat c < rBN
        · unfold decodeFrs
          rw [if_pos hc, ih ⟨x, hx2, hxv⟩]
        · unfold decodeFrs
          rw [if_neg hc]

/-! # Claim theorems -/

/-- C1: the spec requires the round-trip property (a proof returned by the
last set_leaf_with_proof verifies), but the code violates it: on a consistent
depth-2 tree over the non-commutative hash 2a+b, the proof returned by a
single set_leaf_with_proof call is rejected by verify_proof (Ok(false)),
because verify_proof folds the assist list front-to-back while the write
recomputed the root back-to-front. -/
theorem c1_roundtrip_fails_on_noncommutative_hash :
    listGet treeC1 0 = affHash (listGet treeC1 1) (listGet treeC1 2)
    ∧ listGet treeC1 1 = affHash (listGet treeC1 3) (listGet treeC1 4)
    ∧ listGet treeC1 2 = affHash (listGet treeC1 5) (listGet treeC1 6)
    ∧ (set_leaf_with_proof (arrayBackend Nat affHash 2) 2 treeC1
        ⟨5, 3, none, none⟩).2 = .ok ⟨5, 22, [2, 0], 3⟩
    ∧ verify_proof affHash ⟨5, 22, [2, 0], 3⟩ = .ok false := by decide

/-- C2: the spec requires both the write and the verify recomputation to
consume the assist list leaf-adjacent-first, but verify_proof consumes it
front-to-back (root-adjacent sibling first): on a consistent depth-2 tree
the write produces root 15 = H(H(1,4),3) (leaf-adjacent-first), while
verify_proof accepts exactly the root 14 = H(H(1,3),4) obtained by folding
the stored assist [3,4] from its first element, and rejects the write's own
root. -/
theorem c2_verify_consumes_assist_front_first :
    listGet treeC2 0 = affHash (listGet treeC2 1) (listGet treeC2 2)
    ∧ listGet treeC2 1 = affHash (listGet treeC2 3) (listGet treeC2 4)
    ∧ listGet treeC2 2 = affHash (listGet treeC2 5) (listGet treeC2 6)
    ∧ (set_leaf_with_proof (arrayBackend Nat affHash 2) 2 treeC2
        ⟨1, 3, none, none⟩).2 = .ok ⟨1, 15, [3, 4], 3⟩
    ∧ affHash (affHash 1 4) 3 = 15
    ∧ affHash (affHash 1 3) 4 = 14
    ∧ verify_proof affHash ⟨1, 15, [3, 4], 3⟩ = .ok false
    ∧ verify_proof affHash ⟨1, 14, [3, 4], 3⟩ = .ok true := by decide

/-- C3: the spec requires verify_proof to fail closed with an InvalidDepth
or InvalidHash error when the assist length differs from the depth, but the
code performs no length check at all: a proof with an empty assist list for
a depth-3 leaf index returns Ok(true) whenever root = source, and
verify_proof never returns an error on any input. -/
theorem c3_verify_no_depth_check :
    verify_proof affHash ⟨9, 9, ([] : List Nat), 7⟩ = .ok true
    ∧ ([] : List Nat).length ≠ 3
    ∧ ∀ (f : Nat → Nat → Nat) (pf : MerkleProof Nat),
        ∃ b, verify_proof f pf = .ok b :=
  ⟨by decide, by decide, fun f pf => ⟨_, rfl⟩⟩

/-- C4: for every valid leaf of the array backend, set_leaf_with_proof
returns a proof whose source is the new leaf hash, whose assist list is
exactly the one get_leaf_with_proof produced before the write, and whose
root is the bottom-up parity fold (odd running offset: sibling left, running
hash right; even: the reverse) of the reversed assist list; each recomputed
internal hash is stored at its level-d ancestor index and the final hash is
installed at the root cell. -/
theorem c4_set_leaf_with_proof_correct {H : Type} [DecidableEq H] [Inhabited H]
    (f : H → H → H) (D : Nat) (s : List H) (leaf : MerkleNodeData H)
    (hlen : s.length = 2 ^ (D + 1) - 1)
    (hlo : 2 ^ D - 1 ≤ leaf.index) (hhi : leaf.index ≤ 2 ^ (D + 1) - 2) :
    (set_leaf_with_proof (arrayBackend H f D) D s leaf).2
        = .ok ⟨leaf.hash,
               spec_recompute f (leaf.index - (2 ^ D - 1)) leaf.hash
                 (assist_ideal s D (leaf.index - (2 ^ D - 1))).reverse,
               assist_ideal s D (leaf.index - (2 ^ D - 1)), leaf.index⟩
    ∧ (∃ nd, get_leaf_with_proof (arrayBackend H f D) D s leaf.index
          = .ok (nd, ⟨listGet s leaf.index, listGet s 0,
                      assist_ideal s D (leaf.index - (2 ^ D - 1)), leaf.index⟩))
    ∧ listGet (set_leaf_with_proof (arrayBackend H f D) D s leaf).1 0
        = spec_recompute f (leaf.index - (2 ^ D - 1)) leaf.hash
            (assist_ideal s D (leaf.index - (2 ^ D - 1))).reverse
    ∧ ∀ d, d < D →
        listGet (set_leaf_with_proof (arrayBackend H f D) D s leaf).1
            ((leaf.index - (2 ^ D - 1)) / 2 ^ (D - d) + (2 ^ d - 1))
          = spec_recompute f (leaf.index - (2 ^ D - 1)) leaf.hash
              ((assist_ideal s D (leaf.index - (2 ^ D - 1))).drop d).reverse := by
  have hp : 0 < 2 ^ D := Nat.two_pow_pos D
  have hd2 : 2 ^ (D + 1) = 2 ^ D * 2 := by rw [pow_succ]
  set off := leaf.index - (2 ^ D - 1) with hoffdef
  set assist := assist_ideal s D off with hassistdef
  have hoff : off < 2 ^ D := by omega
  have hlen2 : assist.length = D := assist_ideal_length s D off
  have htD : assist.take D = assist := by rw [← hlen2, List.take_length]
  have hmain := set_leaf_with_proof_eq f D s leaf hlo hhi
  have hlenA : (apply_writes f assist D (s.set leaf.index leaf.hash)
      off leaf.hash).length = s.length := by
    rw [apply_writes_length, List.length_set]
  refine ⟨?_, ⟨mkNode s leaf.index, get_leaf_with_proof_ok f D s leaf.index hlo hhi⟩,
    ?_, ?_⟩
  · rw [hmain]
  · rw [hmain]
    exact listGet_set_self _ _ _ (by rw [hlenA, hlen]; omega)
  · intro d hd
    rw [hmain]
    rcases Nat.eq_zero_or_pos d with hd0 | hdpos
    · subst hd0
      have hz : off / 2 ^ (D - 0) + (2 ^ 0 - 1) = 0 := by
        simp [Nat.div_eq_of_lt hoff]
      rw [hz, List.drop_zero]
      exact listGet_set_self _ _ _ (by rw [hlenA, hlen]; omega)
    · have htwo : 2 ^ 1 ≤ 2 ^ d := Nat.pow_le_pow_right (by norm_num) hdpos
      rw [pow_one] at htwo
      have hpos1 : 0 < 2 ^ d - 1 := by omega
      have hposix : 0 < off / 2 ^ (D - d) + (2 ^ d - 1) :=
        Nat.lt_of_lt_of_le hpos1 (Nat.le_add_left _ _)
      rw [listGet_set_ne _ (off / 2 ^ (D - d) + (2 ^ d - 1)) 0 _
        (Nat.pos_iff_ne_zero.mp hposix)]
      have hw := apply_writes_written f assist D (s.set leaf.index leaf.hash)
        off leaf.hash hoff (by omega) (by rw [List.length_set]; omega) d hd
      rw [htD] at hw
      exact hw

/-- C4 witness: the generic theorem applied at depth 2, the all-zero
7-node store, leaf 3 written to 5 under the hash 2a+b; the spec fold
evaluates to 20. -/
theorem c4_witness :
    (set_leaf_with_proof (arrayBackend Nat affHash 2) 2 (List.replicate 7 0)
        ⟨5, 3, none, none⟩).2 = .ok ⟨5, 20, [0, 0], 3⟩
    ∧ listGet (set_leaf_with_proof (arrayBackend Nat affHash 2) 2
        (List.replicate 7 0) ⟨5, 3, none, none⟩).1 0 = 20 := by
  have h := c4_set_leaf_with_proof_correct affHash 2 (List.replicate 7 0)
    ⟨5, 3, none, none⟩ (by decide) (by decide) (by decide)
  refine ⟨?_, ?_⟩
  · rw [h.1]
    decide
  · rw [h.2.2.1]
    decide

/-- C5: for every depth D >= 1 and valid leaf index, get_path returns
exactly the D global indices of the ancestors from the node one level below
the root (level 1) down to the leaf (level D), the t-th element being
2^(t+1) - 1 + offset / 2^(D-1-t); the list has length D and its last
element is the leaf index itself; for every index outside the leaf range
get_path fails with InvalidLeafIndex. -/
theorem c5_get_path_spec :
    (∀ D index, 1 ≤ D → 2 ^ D - 1 ≤ index → index ≤ 2 ^ (D + 1) - 2 →
      get_path index D
          = .ok ((List.range D).map fun t => anc D (index - (2 ^ D - 1)) (t + 1))
        ∧ ((List.range D).map fun t => anc D (index - (2 ^ D - 1)) (t + 1)).length = D
        ∧ ((List.range D).map fun t =>
            anc D (index - (2 ^ D - 1)) (t + 1)).getLast? = some index)
    ∧ (∀ D index, index < 2 ^ D - 1 ∨ 2 ^ (D + 1) - 1 ≤ index →
      get_path index D = .error ⟨zeroHash, index, .InvalidLeafIndex⟩) := by
  constructor
  · intro D index hD hlo hhi
    have hp : 0 < 2 ^ D := Nat.two_pow_pos D
    refine ⟨get_path_ok D index hlo hhi, by simp, ?_⟩
    have hD1 : D = (D - 1) + 1 := by omega
    have h1 : (List.range D).getLast? = some (D - 1) := by
      conv_lhs => rw [hD1]
      rw [List.range_succ, List.getLast?_concat]
    rw [List.getLast?_map, h1]
    have h2 : D - 1 + 1 = D := by omega
    show some (anc D (index - (2 ^ D - 1)) (D - 1 + 1)) = some index
    rw [h2, anc_last]
    congr 1
    omega
  · intro D index h
    unfold get_path
    rw [leaf_check_err index D h]

/-- C5 witness: depth 3, leaf 7 (path [1,3,7] with last element 7), and the
internal index 2 rejected with InvalidLeafIndex. -/
theorem c5_witness :
    get_path 7 3 = .ok ((List.range 3).map fun t => anc 3 (7 - (2 ^ 3 - 1)) (t + 1))
    ∧ ((List.range 3).map fun t =>
        anc 3 (7 - (2 ^ 3 - 1)) (t + 1)).getLast? = some 7
    ∧ get_path 2 3 = .error ⟨zeroHash, 2, .InvalidLeafIndex⟩ :=
  ⟨(c5_get_path_spec.1 3 7 (by decide) (by decide) (by decide)).1,
   (c5_get_path_spec.1 3 7 (by decide) (by decide) (by decide)).2.2,
   c5_get_path_spec.2 3 2 (by decide)⟩

/-- C6 counterexample: with a backend whose set_parent hook fails (write
budget 0), set_leaf_with_proof on the all-zero depth-2 tree returns an
error, yet the leaf write has already been applied: the final store holds 5
at index 3 and differs from the initial store, so a failed write does leave
partial writes inconsistent with the previous root. -/
theorem c6_counterexample :
    (set_leaf_with_proof (failBackend Nat affHash 2) 2
        (([0, 0, 0, 0, 0, 0, 0] : List Nat), 0) ⟨5, 3, none, none⟩).2
      = .error ⟨zeroHash, 1, .InvalidHash⟩
    ∧ (set_leaf_with_proof (failBackend Nat affHash 2) 2
        (([0, 0, 0, 0, 0, 0, 0] : List Nat), 0) ⟨5, 3, none, none⟩).1.1
      = [0, 0, 0, 5, 0, 0, 0]
    ∧ ([0, 0, 0, 5, 0, 0, 0] : List Nat) ≠ [0, 0, 0, 0, 0, 0, 0] := by decide

/-- C6 amended: atomicity holds only for errors raised before the leaf
write: on the array backend (whose write hooks never fail on the in-range
indices the loop produces) any invalid leaf index makes set_leaf_with_proof
fail during the initial read with the state returned unchanged; when a
backend write hook can fail after the leaf write, the leaf write persists
(see the counterexample). -/
theorem c6_atomic_only_before_leaf_write {H : Type} [DecidableEq H]
    [Inhabited H] (f : H → H → H) (D : Nat) (s : List H)
    (leaf : MerkleNodeData H)
    (h : leaf.index < 2 ^ D - 1 ∨ 2 ^ (D + 1) - 1 ≤ leaf.index) :
    set_leaf_with_proof (arrayBackend H f D) D s leaf
      = (s, .error ⟨zeroHash, leaf.index, .InvalidLeafIndex⟩) := by
  simp only [set_leaf_with_proof, c6_helper_read_error f D s leaf.index h]

/-- C6 witness: writing the internal index 1 on the depth-2 array backend
fails with InvalidLeafIndex and returns the store unchanged. -/
theorem c6_witness :
    set_leaf_with_proof (arrayBackend Nat affHash 2) 2
        ([0, 0, 0, 0, 0, 0, 0] : List Nat) ⟨5, 1, none, none⟩
      = (([0, 0, 0, 0, 0, 0, 0] : List Nat),
         .error ⟨zeroHash, 1, .InvalidLeafIndex⟩) :=
  c6_atomic_only_before_leaf_write affHash 2 [0, 0, 0, 0, 0, 0, 0]
    ⟨5, 1, none, none⟩ (by decide)

/-- C7: the depth-3 additive scenario: writing the first leaf index 7 with
value 1 gives root 1; then writing any other leaf with 2 gives root 3; then
writing any third distinct leaf with 3 gives root 6; each write's returned
proof verifies against the root produced by that write. -/
theorem c7_additive_scenario :
    addWriteOk store0 7 1 1 = true
    ∧ (∀ j, j < 15 → 8 ≤ j →
        addWriteOk (addWrite store0 7 1).1 j 2 3 = true
        ∧ ∀ k, k < 15 → 8 ≤ k → k ≠ j →
            addWriteOk (addWrite (addWrite store0 7 1).1 j 2).1 k 3 6 = true) := by
  decide

/-- C7 witness: the scenario instantiated with second leaf 8 and third
leaf 9. -/
theorem c7_witness :
    addWriteOk store0 7 1 1 = true
    ∧ addWriteOk (addWrite store0 7 1).1 8 2 3 = true
    ∧ addWriteOk (addWrite (addWrite store0 7 1).1 8 2).1 9 3 6 = true :=
  ⟨c7_additive_scenario.1,
   (c7_additive_scenario.2 8 (by decide) (by decide)).1,
   (c7_additive_scenario.2 8 (by decide) (by decide)).2 9 (by decide) (by decide)
     (by decide)⟩

/-- C8: the byte-payload hash fails with InvalidArgument for every payload
whose length is not a multiple of 32 and for every payload containing a
32-byte chunk that is not a canonical field element (value >= the BN254
scalar modulus); for every well-formed payload it returns, without error,
the representation of the Poseidon squeeze (abstracted as f) of the decoded
field elements. -/
theorem c8_hash_bytes_contract (f : List Nat → Nat) (data : List Nat) :
    (data.length % 32 ≠ 0 →
      hash f data = .error (.InvalidArgument invalidMsg))
    ∧ (data.length % 32 = 0 → (∃ c ∈ chunks32 data, rBN ≤ leBytesToNat c) →
      hash f data = .error (.InvalidArgument invalidMsg))
    ∧ (data.length % 32 = 0 → (∀ c ∈ chunks32 data, leBytesToNat c < rBN) →
      hash f data = .ok (natToLeBytes 32 (f ((chunks32 data).map leBytesToNat)))) := by
  refine ⟨?_, ?_, ?_⟩
  · intro h
    unfold hash
    rw [if_pos h]
  · intro h hbad
    unfold hash
    rw [if_neg (by simp [h]), decodeFrs_err _ hbad]
  · intro h hgood
    unfold hash
    rw [if_neg (by simp [h]), decodeFrs_ok _ hgood]

/-- C8 witness: a 1-byte payload is rejected, the 32-byte encoding of the
modulus itself is rejected as non-canonical, and 32 zero bytes hash without
error. -/
theorem c8_witness :
    hash (fun _ => 0) [0] = .error (.InvalidArgument invalidMsg)
    ∧ hash (fun _ => 0) (natToLeBytes 32 rBN)
        = .error (.InvalidArgument invalidMsg)
    ∧ hash (fun _ => 0) (List.replicate 32 0)
        = .ok (natToLeBytes 32 ((fun _ => 0)
            ((chunks32 (List.replicate 32 0)).map leBytesToNat))) :=
  ⟨(c8_hash_bytes_contract (fun _ => 0) [0]).1 (by decide),
   (c8_hash_bytes_contract (fun _ => 0) (natToLeBytes 32 rBN)).2.1
     (by decide) (by decide),
   (c8_hash_bytes_contract (fun _ => 0) (List.replicate 32 0)).2.2
     (by decide) (by decide)⟩

/-- C9 counterexample: the claim asserts get_sibling_index is total for
every index >= 1, but at the odd index u32::MAX = 2^32 - 1 the computation
index + 1 overflows u32, so under checked semantics no value is returned. -/
theorem c9_counterexample :
    (2 ^ 32 - 1) % 2 = 1
    ∧ 1 ≤ 2 ^ 32 - 1
    ∧ get_sibling_index_checked (2 ^ 32 - 1) = none := by decide

/-- C9 amended: get_sibling_index underflows (0 - 1 in u32) at the root
index 0, and for every index in [1, 2^32 - 2] it is total and returns
index + 1 when the index is odd and index - 1 when it is even; at the
remaining u32 value 2^32 - 1 (odd) the computation index + 1 overflows. -/
theorem c9_sibling_checked_range :
    get_sibling_index_checked 0 = none
    ∧ ∀ i, 1 ≤ i → i ≤ 2 ^ 32 - 2 →
        get_sibling_index_checked i = some (get_sibling_index i)
        ∧ get_sibling_index i = (if i % 2 = 1 then i + 1 else i - 1) := by
  constructor
  · decide
  · intro i h1 h2
    have h232 : (2:Nat) ^ 32 = 4294967296 := by norm_num
    rw [h232] at h2
    have hlt : i + 1 < 4294967296 := by omega
    unfold get_sibling_index_checked get_sibling_index checkedSub U32LIM
    rw [h232]
    rcases Nat.mod_two_eq_zero_or_one i with hp | hp <;>
      simp [hp, h1, hlt]

/-- C9 witness: the amended theorem applied at the odd index 5. -/
theorem c9_witness :
    get_sibling_index_checked 5 = some (get_sibling_index 5)
    ∧ get_sibling_index 5 = 6 :=
  ⟨(c9_sibling_checked_range.2 5 (by decide) (by decide)).1, by decide⟩

/-- C10: get_node_type asserts height < 32, and under checked u32 semantics
the classification agrees with the ideal thresholds 2^(height+1) - 1 and
2^height - 1 for every height <= 30 and every u32 index (no overflow
occurs), while at height 31 the computation 2_u32.pow(32) overflows, so no
classification is produced; heights >= 32 fail the assert. -/
theorem c10_get_node_type_checked_thresholds :
    (∀ hgt, hgt ≤ 30 → ∀ i, i < 2 ^ 32 →
        get_node_type_checked i hgt = some (get_node_type i hgt))
    ∧ (∀ i, get_node_type_checked i 31 = none)
    ∧ (∀ i hgt, 32 ≤ hgt → get_node_type_checked i hgt = none) := by
  refine ⟨?_, ?_, ?_⟩
  · intro hgt hh i _
    have ha : 2 ^ (hgt + 1) < 4294967296 := by
      calc 2 ^ (hgt + 1) ≤ 2 ^ 31 :=
            Nat.pow_le_pow_right (by norm_num) (by omega)
        _ < 4294967296 := by norm_num
    have hb : 2 ^ hgt < 4294967296 := by
      calc 2 ^ hgt ≤ 2 ^ 30 := Nat.pow_le_pow_right (by norm_num) hh
        _ < 4294967296 := by norm_num
    have hc : 1 ≤ 2 ^ (hgt + 1) := Nat.two_pow_pos (hgt + 1)
    have hd : 1 ≤ 2 ^ hgt := Nat.two_pow_pos hgt
    have h232 : (2:Nat) ^ 32 = 4294967296 := by norm_num
    have e1 : checkedPow2 (hgt + 1) = some (2 ^ (hgt + 1)) := by
      unfold checkedPow2 U32LIM
      rw [h232, if_pos ha]
    have e2 : checkedPow2 hgt = some (2 ^ hgt) := by
      unfold checkedPow2 U32LIM
      rw [h232, if_pos hb]
    have e3 : checkedSub (2 ^ (hgt + 1)) 1 = some (2 ^ (hgt + 1) - 1) := by
      unfold checkedSub
      rw [if_pos hc]
    have e4 : checkedSub (2 ^ hgt) 1 = some (2 ^ hgt - 1) := by
      unfold checkedSub
      rw [if_pos hd]
    unfold get_node_type_checked get_node_type
    rw [if_pos (show hgt < 32 by omega), e1, e2]
    show (match checkedSub (2 ^ (hgt + 1)) 1, checkedSub (2 ^ hgt) 1 with
          | some t1, some t2 =>
              some (if t1 ≤ i then NodeType.NodeInvalid
                    else if t2 ≤ i then NodeType.NodeLeaf
                    else NodeType.NodeNonLeaf)
          | _, _ => none) = _
    rw [e3, e4]
  · intro i
    norm_num [get_node_type_checked, checkedPow2, U32LIM]
  · intro i hgt hh
    simp [get_node_type_checked, show ¬ hgt < 32 by omega]

/-- C10 witness: the theorem applied at height 5 with index 10 and at
height 31. -/
theorem c10_witness :
    get_node_type_checked 10 5 = some (get_node_type 10 5)
    ∧ get_node_type_checked 0 31 = none :=
  ⟨c10_get_node_type_checked_thresholds.1 5 (by decide) 10 (by decide),
   c10_get_node_type_checked_thresholds.2.1 0⟩


end ZKC
